import Mathlib

/-!
Verification development for the tree-memory module
(`src/models/memory_modules.py`, class `TreeMemory`).

Modelling conventions:
* A floating-point scalar is modelled as an exact rational (`ℚ`).
* A `[D]` embedding vector is `Vec := List ℚ`; an `[N, D]` tensor for one
  batch element is `List Vec`.  All the tensor operations of the source act
  independently on each batch element (they are data-parallel over the batch
  axis), so the embedding models a single batch element; the batch dimension
  of a shape `[B, N, D]` is recovered by mapping over a list of batch rows.
* `k = floor(log_b(N-1))` is computed by the source with float `torch.log`
  and `torch.floor`; for natural arguments `N - 1 ≥ 1` this equals the
  integer floor-logarithm, which we compute with the structurally recursive
  `intLog` below.
* External collaborators (the transformer aggregator, the attention block
  `query_model`, `torch.log` on attention weights) are opaque function
  parameters; random draws (`torch.rand`, `torch.multinomial`, the freshly
  constructed `nn.Linear` inside `use_mlps`) are explicit inputs.
-/

/-- A `D`-dimensional embedding vector (one row of a float tensor). -/
abbrev Vec : Type := List ℚ

/-- One level of the stored tree table: node embeddings plus validity mask
(the per-batch-row content of one `(layer_data, layer_mask)` pair of
`self.train_tree_data`). -/
abbrev TreeLevel : Type := List Vec × List ℚ

/-- Dot product of two vectors (used to model `torch.einsum` contractions and
`nn.Linear` applications). -/
def dotProd (a b : Vec) : ℚ := (List.zipWith (fun x y => x * y) a b).sum

/-- The all-ones vector of length `D`, one row of `torch.ones(B, 2, D)`. -/
def onesVec (D : ℕ) : Vec := List.replicate D (1 : ℚ)

/-- Elementwise sum of two `[M, D]` stacks of vectors (`pred_emb + query_data`). -/
def addVecs (a b : List Vec) : List Vec := List.zipWith (fun u v => List.zipWith (fun x y => x + y) u v) a b

/-- Fuel-driven integer floor-logarithm: `intLogFuel b fuel n` equals
`floor(log_b n)` whenever `fuel ≥ n ≥ 1` and `b ≥ 2`.  Structural recursion on
`fuel` keeps it kernel-computable. -/
def intLogFuel (b : ℕ) : ℕ → ℕ → ℕ
  | 0, _ => 0
  | fuel + 1, n => if 2 ≤ b ∧ b ≤ n then intLogFuel b fuel (n / b) + 1 else 0

/-- `intLog b n = floor(log_b n)` for `b ≥ 2`, `n ≥ 1`.  Models the source's
`torch.floor(torch.log(x) / torch.log(b)).int()` on natural arguments. -/
def intLog (b n : ℕ) : ℕ := intLogFuel b n n

/-- Branch depth `k = floor(log_b(N - 1))` (lines 141-148 / 174-181 of
`memory_modules.py`).  Only meaningful for `N ≥ 2`; the `N ≤ 1` case makes the
source's float logarithm `-inf`/`nan` (see `tree_generator`). -/
def kOf (b N : ℕ) : ℕ := intLog b (N - 1)

/-- Leaf-group size `P = ceil(N / b^k)` (line 149 / 182). -/
def POf (b N : ℕ) : ℕ := (N + b ^ kOf b N - 1) / b ^ kOf b N

/-- Number of padding positions `P * b^k - N` (lines 151-153). -/
def numPadOf (b N : ℕ) : ℕ := POf b N * b ^ kOf b N - N

/-- `TreeMemory.pad_node_data` (lines 135-164), one batch row.  The padded
data holds the `N` real items followed by copies of the first `num_pad_nodes`
items shifted by `1e-5`; the mask is `1` on the first `N` positions and `0` on
the padding positions. -/
def pad_node_data (branch_factor : ℕ) (node_data : List Vec) : List Vec × List ℚ :=
  let N := node_data.length
  let num_pad_nodes := numPadOf branch_factor N
  let tree_data :=
    node_data ++ (node_data.take num_pad_nodes).map (fun v => v.map (fun x => x + 1 / 100000))
  let mask := List.replicate N (1 : ℚ) ++ List.replicate num_pad_nodes (0 : ℚ)
  (tree_data, mask)

/-- `TreeMemory.track_mlp_loss` (lines 282-287): one incremental update of a
per-level `(count, mean)` cell of `self.mean_mlp_loss`. -/
def track_mlp_loss (state : ℕ × ℚ) (loss : ℚ) : ℕ × ℚ :=
  let count := state.1 + 1
  (count, state.2 + (loss - state.2) / count)

/-! ### Arithmetic lemmas about the derived tree shape -/

lemma intLogFuel_pow_le (b : ℕ) (hb : 2 ≤ b) :
    ∀ fuel n, 1 ≤ n → n ≤ fuel → b ^ intLogFuel b fuel n ≤ n := by
  intro fuel
  induction fuel with
  | zero => intro n h1 h2; omega
  | succ f ih =>
      intro n h1 h2
      by_cases hbn : 2 ≤ b ∧ b ≤ n
      · have hb0 : 0 < b := by omega
        have hdiv1 : 1 ≤ n / b := (Nat.one_le_div_iff hb0).mpr hbn.2
        have hdivlt : n / b < n := Nat.div_lt_self (by omega) (by omega)
        have hdivle : n / b ≤ f := by omega
        have hrec := ih (n / b) hdiv1 hdivle
        have hmul : b * (n / b) ≤ n := Nat.mul_div_le n b
        calc b ^ intLogFuel b (f + 1) n = b ^ (intLogFuel b f (n / b) + 1) := by
              simp [intLogFuel, hbn]
          _ = b ^ intLogFuel b f (n / b) * b := by rw [pow_succ]
          _ ≤ (n / b) * b := by exact Nat.mul_le_mul_right b hrec
          _ = b * (n / b) := by ring
          _ ≤ n := hmul
      · have : intLogFuel b (f + 1) n = 0 := by simp [intLogFuel, hbn]
        simpa [this]

lemma intLog_pow_le (b n : ℕ) (hb : 2 ≤ b) (hn : 1 ≤ n) : b ^ intLog b n ≤ n :=
  intLogFuel_pow_le b hb n n hn le_rfl

lemma kOf_pow_le (b N : ℕ) (hb : 2 ≤ b) (hN : 2 ≤ N) : b ^ kOf b N ≤ N - 1 :=
  intLog_pow_le b (N - 1) hb (by omega)

lemma kOf_pow_pos (b N : ℕ) (hb : 2 ≤ b) : 0 < b ^ kOf b N :=
  Nat.pos_pow_of_pos _ (by omega)

lemma ceil_mul_lower (N g : ℕ) (hg : 1 ≤ g) : N ≤ (N + g - 1) / g * g := by
  have hmod := Nat.div_add_mod (N + g - 1) g
  have hlt : (N + g - 1) % g < g := Nat.mod_lt _ (by omega)
  rw [Nat.mul_comm]
  omega

lemma ceil_mul_upper (N g : ℕ) : (N + g - 1) / g * g ≤ N + g - 1 :=
  Nat.div_mul_le_self _ g

lemma POf_mul_lower (b N : ℕ) (hb : 2 ≤ b) : N ≤ POf b N * b ^ kOf b N := by
  have := ceil_mul_lower N (b ^ kOf b N) (kOf_pow_pos b N hb)
  simpa [POf] using this

lemma numPadOf_le (b N : ℕ) (hb : 2 ≤ b) (hN : 2 ≤ N) : numPadOf b N ≤ N - 2 := by
  have hup : POf b N * b ^ kOf b N ≤ N + b ^ kOf b N - 1 := by
    have := ceil_mul_upper N (b ^ kOf b N)
    simpa [POf] using this
  have hpow := kOf_pow_le b N hb hN
  have hpos := kOf_pow_pos b N hb
  have hlow := POf_mul_lower b N hb
  simp only [numPadOf]
  omega

lemma pad_node_data_data_length (b : ℕ) (row : List Vec) (hb : 2 ≤ b)
    (hN : 2 ≤ row.length) :
    (pad_node_data b row).1.length = POf b row.length * b ^ kOf b row.length := by
  have hpad : numPadOf b row.length ≤ row.length - 2 := numPadOf_le b row.length hb hN
  have hlow := POf_mul_lower b row.length hb
  simp only [pad_node_data, List.length_append, List.length_map, List.length_take]
  simp only [numPadOf] at *
  omega

lemma pad_node_data_mask_length (b : ℕ) (row : List Vec) (hb : 2 ≤ b)
    (hN : 2 ≤ row.length) :
    (pad_node_data b row).2.length = POf b row.length * b ^ kOf b row.length := by
  have hlow := POf_mul_lower b row.length hb
  simp only [pad_node_data, List.length_append, List.length_replicate]
  simp only [numPadOf] at *
  omega

lemma pad_node_data_mask_sum (b : ℕ) (row : List Vec) :
    (pad_node_data b row).2.sum = (row.length : ℚ) := by
  simp [pad_node_data, List.sum_replicate, nsmul_eq_mul]

/-- C5: for every item count `N ≥ 2` and branch factor `b ≥ 2`, the Padder
output (`pad_node_data`) has exactly `P * b^k` positions where
`k = floor(log_b(N-1))` and `P = ceil(N / b^k)`, this length is `≥ N`, and the
produced validity mask sums to exactly `N` for the batch element.  (The
particular instance `N = 5, b = 2` giving `k = 2`, `P = 2`, `8` positions and
mask sum `5` is checked in the witness.) -/
theorem C5_padder_shape (b : ℕ) (row : List Vec) (hb : 2 ≤ b) (hN : 2 ≤ row.length) :
    (pad_node_data b row).1.length = POf b row.length * b ^ kOf b row.length ∧
    row.length ≤ (pad_node_data b row).1.length ∧
    (pad_node_data b row).2.length = POf b row.length * b ^ kOf b row.length ∧
    (pad_node_data b row).2.sum = (row.length : ℚ) := by
  refine ⟨pad_node_data_data_length b row hb hN, ?_, pad_node_data_mask_length b row hb hN,
    pad_node_data_mask_sum b row⟩
  rw [pad_node_data_data_length b row hb hN]
  exact POf_mul_lower b row.length hb

/-- Five one-dimensional items, the `N = 5` scenario of the spec. -/
def row5 : List Vec := [[0], [0], [0], [0], [0]]

/-- Witness for C5 at the spec's end-to-end scenario A: `N = 5`, `b = 2` gives
`k = 2`, `P = 2`, `8` padded positions and mask sum `5`. -/
theorem C5_padder_shape_witness :
    (2 ≤ 2 ∧ 2 ≤ row5.length) ∧
    (kOf 2 5 = 2 ∧ POf 2 5 = 2 ∧ (pad_node_data 2 row5).1.length = 8 ∧
      (pad_node_data 2 row5).2.sum = 5) ∧
    ((pad_node_data 2 row5).1.length = POf 2 row5.length * 2 ^ kOf 2 row5.length ∧
      row5.length ≤ (pad_node_data 2 row5).1.length ∧
      (pad_node_data 2 row5).2.length = POf 2 row5.length * 2 ^ kOf 2 row5.length ∧
      (pad_node_data 2 row5).2.sum = (row5.length : ℚ)) :=
  ⟨by decide,
   ⟨by decide, by decide, by decide, by
      have := pad_node_data_mask_sum 2 row5
      simpa [row5] using this⟩,
   C5_padder_shape 2 row5 (by decide) (by decide)⟩

/-- C7 (amended): after padding, the first `N` leaf positions equal the
original item embeddings unchanged; each remaining position `N + j`
(`j < P*b^k - N`) holds a copy of item `j` with the constant offset `1e-5`
added to every coordinate and carries validity mask `0` regardless of its
content.  Such a position is nonzero whenever some coordinate of the copied
item differs from `-1e-5` — but it can be exactly zero (see the
counterexample), so the original "hence is not zero" is weakened to this
conditional form. -/
theorem C7_padding_content (b : ℕ) (row : List Vec) (hb : 2 ≤ b) (hN : 2 ≤ row.length) :
    (pad_node_data b row).1.take row.length = row ∧
    (∀ j v, j < numPadOf b row.length → row[j]? = some v →
      (pad_node_data b row).1[row.length + j]? =
        some (v.map (fun x => x + 1 / 100000)) ∧
      (pad_node_data b row).2[row.length + j]? = some 0 ∧
      ((∃ x ∈ v, x ≠ -(1 / 100000)) →
        ∃ y ∈ v.map (fun x => x + 1 / 100000), y ≠ 0)) := by
  constructor
  · simpa [pad_node_data] using List.take_left row _
  · intro j v hj hv
    have hdata : (pad_node_data b row).1[row.length + j]? =
        some (v.map (fun x => x + 1 / 100000)) := by
      simp only [pad_node_data]
      rw [List.getElem?_append_right (by omega)]
      have hred : row.length + j - row.length = j := by omega
      rw [hred, List.getElem?_map, List.getElem?_take, if_pos hj, hv]
      rfl
    have hmask : (pad_node_data b row).2[row.length + j]? = some 0 := by
      simp only [pad_node_data]
      rw [List.getElem?_append_right (by simp)]
      simp [List.getElem?_replicate, hj]
    refine ⟨hdata, hmask, ?_⟩
    rintro ⟨x, hx, hxne⟩
    refine ⟨x + 1 / 100000, List.mem_map.mpr ⟨x, hx, rfl⟩, ?_⟩
    intro hzero
    apply hxne
    linarith [hzero]

/-- A batch row whose first item is the vector `[-1e-5]`; copying it into a
padding slot and adding `1e-5` produces an exactly-zero padded entry. -/
def rowC7 : List Vec := [[-(1 / 100000)], [0], [0], [0], [0]]

/-- C7 counterexample: with `N = 5`, `b = 2` the padder writes position `5`
(a padding slot) as `rowC7[0] + 1e-5 = [0]`, the zero vector, refuting the
claim that every padding position "is not zero". -/
theorem C7_zero_padding_counterexample :
    (pad_node_data 2 rowC7).1[5]? = some [0] ∧
    (pad_node_data 2 rowC7).2[5]? = some 0 := by
  have hpad : numPadOf 2 5 = 3 := by decide
  constructor
  · simp only [pad_node_data, rowC7, List.length_cons, List.length_nil, Nat.zero_add]
    norm_num [hpad]
  · simp only [pad_node_data, rowC7, List.length_cons, List.length_nil, Nat.zero_add]
    norm_num [hpad, List.getElem?_append_right, List.getElem?_replicate]
    rfl

/-- Witness for C7 at `b = 2` and the five-item row `row5`. -/
theorem C7_padding_content_witness :
    (2 ≤ 2 ∧ 2 ≤ row5.length) ∧
    ((pad_node_data 2 row5).1.take row5.length = row5 ∧
    (∀ j v, j < numPadOf 2 row5.length → row5[j]? = some v →
      (pad_node_data 2 row5).1[row5.length + j]? =
        some (v.map (fun x => x + 1 / 100000)) ∧
      (pad_node_data 2 row5).2[row5.length + j]? = some 0 ∧
      ((∃ x ∈ v, x ≠ -(1 / 100000)) →
        ∃ y ∈ v.map (fun x => x + 1 / 100000), y ≠ 0))) :=
  ⟨by decide, C7_padding_content 2 row5 (by decide) (by decide)⟩

/-- C8: starting from the initial `(0, 0.0)` cell of `mean_mlp_loss`, feeding
losses `l_1 .. l_n` through `track_mlp_loss` leaves count `n` and running mean
`(1/n) * (l_1 + ... + l_n)` (exact arithmetic; for `n = 0` both sides are `0`
under the `x / 0 = 0` convention). -/
theorem C8_running_mean (losses : List ℚ) :
    (losses.foldl track_mlp_loss (0, 0)).1 = losses.length ∧
    (losses.foldl track_mlp_loss (0, 0)).2 = losses.sum / (losses.length : ℚ) := by
  have key : ∀ (ls : List ℚ) (c : ℕ) (m : ℚ),
      (ls.foldl track_mlp_loss (c, m)).1 = c + ls.length ∧
      ((ls.foldl track_mlp_loss (c, m)).2) * ((c : ℚ) + (ls.length : ℚ)) =
        m * (c : ℚ) + ls.sum := by
    intro ls
    induction ls with
    | nil => intro c m; simp
    | cons l ls ih =>
        intro c m
        have hc1 : ((c : ℚ) + 1) ≠ 0 := by
          have : (0 : ℚ) ≤ (c : ℚ) := by positivity
          intro h; nlinarith
        have step : track_mlp_loss (c, m) l = (c + 1, m + (l - m) / ((c : ℚ) + 1)) := by
          simp [track_mlp_loss]
        have := ih (c + 1) (m + (l - m) / ((c : ℚ) + 1))
        constructor
        · simp only [List.foldl_cons, step]
          rw [this.1]
          simp [List.length_cons]
          omega
        · simp only [List.foldl_cons, step, List.sum_cons, List.length_cons]
          have h2 := this.2
          push_cast at h2 ⊢
          have hexp : (m + (l - m) / ((c : ℚ) + 1)) * ((c : ℚ) + 1) = m * (c : ℚ) + l := by
            field_simp
            ring
          calc (List.foldl track_mlp_loss (c + 1, m + (l - m) / ((c : ℚ) + 1)) ls).2 *
                ((c : ℚ) + ((ls.length : ℚ) + 1))
              = (List.foldl track_mlp_loss (c + 1, m + (l - m) / ((c : ℚ) + 1)) ls).2 *
                (((c : ℚ) + 1) + (ls.length : ℚ)) := by ring
            _ = (m + (l - m) / ((c : ℚ) + 1)) * ((c : ℚ) + 1) + ls.sum := h2
            _ = m * (c : ℚ) + l + ls.sum := by rw [hexp]
            _ = m * (c : ℚ) + (l + ls.sum) := by ring
  have h := key losses 0 0
  refine ⟨by simpa using h.1, ?_⟩
  rcases Nat.eq_zero_or_pos losses.length with hz | hp
  · have : losses = [] := List.length_eq_zero.mp hz
    subst this
    simp [track_mlp_loss]
  · have hne : ((losses.length : ℚ)) ≠ 0 := by
      exact_mod_cast Nat.pos_iff_ne_zero.mp hp
    have h2 := h.2
    simp only [Nat.cast_zero, zero_add, mul_zero] at h2
    rw [eq_div_iff hne]
    linarith [h2]

/-! ### Tree construction: `tree_generator` and `bottom_up_aggregation` -/

/-- Runtime failures of the memory module, used as the error type of the
shallow embedding: `shapeError` models the crash on `N ≤ 1` in
`tree_generator` (float `log(0) = -inf`, so the `.int()` cast is undefined
and the following `math.ceil(N / b**k)` divides by zero), `indexError` models
`self.train_tree_data[0]` on an empty table, and `processQuit` models the
unconditional `quit()` at line 409 of `tree_retrieval`. -/
inductive TreeMemoryError where
  | shapeError : TreeMemoryError
  | indexError : TreeMemoryError
  | processQuit : TreeMemoryError
deriving DecidableEq

/-- Split a list into consecutive groups of `g` elements (the last group may
be shorter).  This models the reshape `(..., group, D)` that exposes each
sibling group on the last-but-one tensor axis.  The `fuel` argument (any
value `≥ xs.length`) keeps the recursion structural so the kernel can
evaluate it. -/
def chunkFuel {α : Type} (g : ℕ) : ℕ → List α → List (List α)
  | _, [] => []
  | 0, _ :: _ => []
  | fuel + 1, x :: xs => (x :: xs.take (g - 1)) :: chunkFuel g fuel (xs.drop (g - 1))

/-- Consecutive groups of `g` elements of `xs`. -/
def chunkList {α : Type} (g : ℕ) (xs : List α) : List (List α) :=
  chunkFuel g xs.length xs

/-- Truthiness-OR of a group of float mask entries:
`tmp_tree_depth_mask.any(dim=-2).float()` on one sibling group (line 218-220):
`1` if any entry is nonzero, else `0`. -/
def orMask (cm : List ℚ) : ℚ := if cm.any (fun x => decide (x ≠ 0)) then 1 else 0

/-- One level of parent masks: the OR of every sibling group of `g` child
masks. -/
def maskOr (g : ℕ) (m : List ℚ) : List ℚ := (chunkList g m).map orMask

/-- `TreeMemory.bottom_up_aggregation` (lines 195-231), one batch row.  The
source expresses each aggregation step by reshaping the implicit tree tensor
`[B, b, ..., b, P, D]` and collapsing the last-but-one axis; the sizes of the
collapsed axes, leaves first, are exactly `[P, b, ..., b]` — passed here as
the explicit group-size list `gs`.  At each step every sibling group is fed
through the external set-aggregator `agg` and the parent mask is the OR of
the group.  Levels are stored root-first (the source appends leaves-first and
reverses, line 231). -/
def bottom_up_aggregation (agg : List Vec → List ℚ → Vec) :
    List ℕ → List Vec → List ℚ → List TreeLevel
  | [], e, m => [(e, m)]
  | g :: rest, e, m =>
      bottom_up_aggregation agg rest
        (List.zipWith agg (chunkList g e) (chunkList g m)) (maskOr g m) ++ [(e, m)]

/-- `TreeMemory.tree_generator` (lines 166-193), one batch row.  For
`N = node_data.length ≤ 1` the source computes `torch.log(torch.tensor(N-1))`
which is `-inf` (for `N = 1`) or `nan` (for `N = 0`); the `.int()` cast of
that value is undefined (in practice `-2147483648`), after which
`math.ceil(N / branch_factor ** k)` raises `ZeroDivisionError`.  This crash
path is modelled as `shapeError`.  For `N ≥ 2` the padded data/mask are
reshaped into the `[b, ..., b, P]` leaf layout and aggregated bottom-up. -/
def tree_generator (agg : List Vec → List ℚ → Vec) (branch_factor : ℕ)
    (node_data : List Vec) : Except TreeMemoryError (List TreeLevel) :=
  if node_data.length < 2 then Except.error TreeMemoryError.shapeError
  else
    let N := node_data.length
    let k := kOf branch_factor N
    let P := POf branch_factor N
    let dm := pad_node_data branch_factor node_data
    Except.ok (bottom_up_aggregation agg (P :: List.replicate k branch_factor) dm.1 dm.2)

/-- A concrete stand-in for the external transformer aggregator, used only to
instantiate counterexamples and witnesses: it returns the first child
embedding of the group. -/
def aggFirst (children : List Vec) (_masks : List ℚ) : Vec := children.headD []

lemma bua_length (agg : List Vec → List ℚ → Vec) :
    ∀ (gs : List ℕ) (e : List Vec) (m : List ℚ),
      (bottom_up_aggregation agg gs e m).length = gs.length + 1 := by
  intro gs
  induction gs with
  | nil => intro e m; simp [bottom_up_aggregation]
  | cons g rest ih => intro e m; simp [bottom_up_aggregation, ih]

lemma bua_getLast (agg : List Vec → List ℚ → Vec) :
    ∀ (gs : List ℕ) (e : List Vec) (m : List ℚ),
      (bottom_up_aggregation agg gs e m).getLast? = some (e, m) := by
  intro gs
  induction gs with
  | nil => intro e m; simp [bottom_up_aggregation]
  | cons g rest ih => intro e m; simp [bottom_up_aggregation]

lemma bua_ne_nil (agg : List Vec → List ℚ → Vec) (gs : List ℕ) (e : List Vec)
    (m : List ℚ) : bottom_up_aggregation agg gs e m ≠ [] := by
  intro h
  have := bua_length agg gs e m
  rw [h] at this
  simp at this

lemma bua_adjacent (agg : List Vec → List ℚ → Vec) :
    ∀ (gs : List ℕ) (e : List Vec) (m : List ℚ) (i g : ℕ) (li li1 : TreeLevel),
      (gs.reverse)[i]? = some g →
      (bottom_up_aggregation agg gs e m)[i]? = some li →
      (bottom_up_aggregation agg gs e m)[i + 1]? = some li1 →
      li.2 = maskOr g li1.2 := by
  intro gs
  induction gs with
  | nil =>
      intro e m i g li li1 hg _ _
      simp at hg
  | cons g0 rest ih =>
      intro e m i g li li1 hg hli hli1
      rw [show bottom_up_aggregation agg (g0 :: rest) e m =
        bottom_up_aggregation agg rest
          (List.zipWith agg (chunkList g0 e) (chunkList g0 m)) (maskOr g0 m) ++ [(e, m)]
        from rfl] at hli hli1
      set t := bottom_up_aggregation agg rest
        (List.zipWith agg (chunkList g0 e) (chunkList g0 m)) (maskOr g0 m) with ht
      have hlen : t.length = rest.length + 1 := bua_length agg rest _ _
      have hrevlen : (g0 :: rest).reverse.length = rest.length + 1 := by simp
      rcases lt_trichotomy i rest.length with hi | hi | hi
      · have hg2 : (rest.reverse)[i]? = some g := by
          rw [List.reverse_cons, List.getElem?_append] at hg
          simpa [hi] using hg
        have hli2 : t[i]? = some li := by
          rw [List.getElem?_append] at hli
          simpa [show i < t.length by omega] using hli
        have hli12 : t[i + 1]? = some li1 := by
          rw [List.getElem?_append] at hli1
          simpa [show i + 1 < t.length by omega] using hli1
        exact ih _ _ i g li li1 hg2 hli2 hli12
      · have hg2 : g = g0 := by
          rw [List.reverse_cons, List.getElem?_append] at hg
          simp [hi] at hg
          omega
        have hli12 : li1 = (e, m) := by
          rw [List.getElem?_append] at hli1
          simp [show ¬ (i + 1 < t.length) by omega, show i + 1 - t.length = 0 by omega] at hli1
          exact hli1.symm
        have hlast : t[i]? = t.getLast? := by
          rw [List.getLast?_eq_getElem? t]
          congr 1
          omega
        have hli2 : li = (List.zipWith agg (chunkList g0 e) (chunkList g0 m), maskOr g0 m) := by
          rw [List.getElem?_append] at hli
          rw [if_pos (show i < t.length by omega)] at hli
          rw [hlast] at hli
          rw [bua_getLast agg rest _ _] at hli
          exact (Option.some.inj hli).symm
        rw [hli2, hli12, hg2]
      · have : (g0 :: rest).reverse.length ≤ i := by omega
        rw [List.getElem?_eq_none this] at hg
        simp at hg

lemma chunkFuel_length_exact {α : Type} (g : ℕ) (hg : 1 ≤ g) :
    ∀ (c fuel : ℕ) (m : List α), m.length = g * c → m.length ≤ fuel →
      (chunkFuel g fuel m).length = c := by
  intro c
  induction c with
  | zero =>
      intro fuel m hm _
      have : m = [] := List.length_eq_zero.mp (by omega)
      subst this
      cases fuel <;> rfl
  | succ c ih =>
      intro fuel m hm hf
      have hmul : g * (c + 1) = g * c + g := Nat.mul_succ g c
      have hmpos : 0 < m.length := by omega
      obtain ⟨x, xs, rfl⟩ : ∃ x xs, m = x :: xs := by
        cases m with
        | nil => simp at hmpos
        | cons a t => exact ⟨a, t, rfl⟩
      obtain ⟨f, rfl⟩ : ∃ f, fuel = f + 1 := by
        cases fuel with
        | zero => omega
        | succ f => exact ⟨f, rfl⟩
      show ((x :: xs.take (g - 1)) :: chunkFuel g f (xs.drop (g - 1))).length = c + 1
      have hxslen : xs.length = g * c + g - 1 := by
        have := hm
        simp only [List.length_cons] at this
        omega
      have hdroplen : (xs.drop (g - 1)).length = g * c := by
        simp only [List.length_drop]
        omega
      have hfuel2 : (xs.drop (g - 1)).length ≤ f := by
        simp only [List.length_drop]
        have : xs.length ≤ f := by
          have := hf
          simp only [List.length_cons] at this
          omega
        omega
      simp only [List.length_cons]
      rw [ih f (xs.drop (g - 1)) hdroplen hfuel2]

lemma chunkFuel_mem {α : Type} (g : ℕ) :
    ∀ (fuel : ℕ) (m : List α) (x : α), m.length ≤ fuel → x ∈ m →
      ∃ c ∈ chunkFuel g fuel m, x ∈ c := by
  intro fuel
  induction fuel with
  | zero =>
      intro m x hf hx
      have : m = [] := List.length_eq_zero.mp (by omega)
      subst this
      simp at hx
  | succ f ih =>
      intro m x hf hx
      cases m with
      | nil => simp at hx
      | cons a xs =>
          show ∃ c ∈ (a :: xs.take (g - 1)) :: chunkFuel g f (xs.drop (g - 1)), x ∈ c
          rcases List.mem_cons.mp hx with rfl | hx2
          · exact ⟨_, List.mem_cons_self _ _, List.mem_cons_self _ _⟩
          · have hx3 : x ∈ xs.take (g - 1) ++ xs.drop (g - 1) := by
              rw [List.take_append_drop]
              exact hx2
            rcases List.mem_append.mp hx3 with hx4 | hx4
            · exact ⟨a :: xs.take (g - 1), List.mem_cons_self _ _,
                List.mem_cons_of_mem a hx4⟩
            · have hflen : (xs.drop (g - 1)).length ≤ f := by
                have h1 : xs.length ≤ f := by
                  have := hf
                  simp only [List.length_cons] at this
                  omega
                have h2 : (xs.drop (g - 1)).length ≤ xs.length := by
                  simp [List.length_drop]
                omega
              obtain ⟨c, hc, hxc⟩ := ih (xs.drop (g - 1)) x hflen hx4
              exact ⟨c, List.mem_cons_of_mem _ hc, hxc⟩

lemma orMask_vals (cm : List ℚ) : orMask cm = 0 ∨ orMask cm = 1 := by
  unfold orMask
  by_cases h : cm.any (fun x => decide (x ≠ 0))
  · rw [if_pos h]
    right
    rfl
  · rw [if_neg h]
    left
    rfl

lemma orMask_eq_one (cm : List ℚ) (x : ℚ) (hx : x ∈ cm) (hxne : x ≠ 0) :
    orMask cm = 1 := by
  unfold orMask
  rw [if_pos]
  rw [List.any_eq_true]
  exact ⟨x, hx, by simpa using hxne⟩

lemma maskOr_length (g : ℕ) (hg : 1 ≤ g) (m : List ℚ) (c : ℕ)
    (hm : m.length = g * c) : (maskOr g m).length = c := by
  unfold maskOr chunkList
  rw [List.length_map]
  exact chunkFuel_length_exact g hg c m.length m hm le_rfl

lemma maskOr_vals (g : ℕ) (m : List ℚ) : ∀ y ∈ maskOr g m, y = 0 ∨ y = 1 := by
  intro y hy
  unfold maskOr at hy
  obtain ⟨c, _, rfl⟩ := List.mem_map.mp hy
  exact orMask_vals c

lemma maskOr_mem_one (g : ℕ) (m : List ℚ) (x : ℚ) (hx : x ∈ m) (hxne : x ≠ 0) :
    (1 : ℚ) ∈ maskOr g m := by
  obtain ⟨c, hc, hxc⟩ := chunkFuel_mem g m.length m x le_rfl hx
  unfold maskOr chunkList
  rw [List.mem_map]
  exact ⟨c, hc, orMask_eq_one c x hxc hxne⟩

lemma bua_root (agg : List Vec → List ℚ → Vec) :
    ∀ (gs : List ℕ) (e : List Vec) (m : List ℚ),
      (∀ g ∈ gs, 1 ≤ g) → m.length = gs.prod →
      (∀ x ∈ m, x = 0 ∨ x = 1) → (∃ x ∈ m, x ≠ 0) →
      ∃ eroot, (bottom_up_aggregation agg gs e m).head? = some (eroot, [1]) := by
  intro gs
  induction gs with
  | nil =>
      intro e m _ hlen h01 hex
      obtain ⟨x, hx, hxne⟩ := hex
      have hm1 : m.length = 1 := by simpa using hlen
      obtain ⟨a, rfl⟩ := List.length_eq_one.mp hm1
      have hax : x = a := by simpa using hx
      subst hax
      have : x = 1 := by
        rcases h01 x (by simp) with h | h
        · exact absurd h hxne
        · exact h
      subst this
      exact ⟨e, by simp [bottom_up_aggregation]⟩
  | cons g0 rest ih =>
      intro e m hg hlen h01 hex
      obtain ⟨x, hx, hxne⟩ := hex
      have hg0 : 1 ≤ g0 := hg g0 (by simp)
      have hlen2 : m.length = g0 * rest.prod := by simpa [List.prod_cons] using hlen
      have hnext := ih (List.zipWith agg (chunkList g0 e) (chunkList g0 m)) (maskOr g0 m)
        (fun g hgm => hg g (List.mem_cons_of_mem _ hgm))
        (maskOr_length g0 hg0 m rest.prod hlen2)
        (maskOr_vals g0 m)
        ⟨1, maskOr_mem_one g0 m x hx hxne, one_ne_zero⟩
      obtain ⟨eroot, hroot⟩ := hnext
      refine ⟨eroot, ?_⟩
      rw [show bottom_up_aggregation agg (g0 :: rest) e m =
        bottom_up_aggregation agg rest
          (List.zipWith agg (chunkList g0 e) (chunkList g0 m)) (maskOr g0 m) ++ [(e, m)]
        from rfl]
      rcases hne : bottom_up_aggregation agg rest
          (List.zipWith agg (chunkList g0 e) (chunkList g0 m)) (maskOr g0 m) with _ | ⟨hd, tl⟩
      · exact absurd hne (bua_ne_nil agg rest _ _)
      · rw [hne] at hroot
        simpa using hroot

lemma tree_generator_ok (agg : List Vec → List ℚ → Vec) (b : ℕ) (row : List Vec)
    (hN : 2 ≤ row.length) :
    tree_generator agg b row =
      Except.ok (bottom_up_aggregation agg
        (POf b row.length :: List.replicate (kOf b row.length) b)
        (pad_node_data b row).1 (pad_node_data b row).2) := by
  have hcond : ¬ (row.length < 2) := by omega
  simp [tree_generator, hcond]

lemma POf_pos (b N : ℕ) (hb : 2 ≤ b) (hN : 2 ≤ N) : 1 ≤ POf b N := by
  have hlow := POf_mul_lower b N hb
  rcases Nat.eq_zero_or_pos (POf b N) with h | h
  · rw [h] at hlow
    simp at hlow
    omega
  · exact h

/-- C4 (amended): after the data-setup operation on `N ≥ 2` items with branch
factor `b ≥ 2`, the stored tree level table contains exactly `k + 2`
(embedding, mask) pairs — the `k + 1` aggregated levels starting at the root
(index 0) plus the raw padded leaf level stored last (index `k + 1`) — where
`k = floor(log_b(N-1))`.  The original claim's count `k + 1` is refuted by the
counterexample. -/
theorem C4_table_levels (agg : List Vec → List ℚ → Vec) (b : ℕ) (row : List Vec)
    (hb : 2 ≤ b) (hN : 2 ≤ row.length) :
    ∃ t, tree_generator agg b row = Except.ok t ∧
      t.length = kOf b row.length + 2 ∧
      t.getLast? = some (pad_node_data b row) := by
  refine ⟨_, tree_generator_ok agg b row hN, ?_, ?_⟩
  · rw [bua_length]
    simp
  · rw [bua_getLast]

/-- C4 counterexample: for `N = 5`, `b = 2` (so `k = 2`) the stored table has
`4 = k + 2` levels, while the claim predicts `k + 1 = 3`. -/
theorem C4_level_count_counterexample :
    Except.map List.length (tree_generator aggFirst 2 row5) = Except.ok 4 ∧
    kOf 2 row5.length + 1 = 3 := by
  constructor
  · rw [tree_generator_ok aggFirst 2 row5 (by decide)]
    have hlen : (bottom_up_aggregation aggFirst
        (POf 2 row5.length :: List.replicate (kOf 2 row5.length) 2)
        (pad_node_data 2 row5).1 (pad_node_data 2 row5).2).length = 4 := by
      rw [bua_length]
      decide
    change Except.ok (bottom_up_aggregation aggFirst
        (POf 2 row5.length :: List.replicate (kOf 2 row5.length) 2)
        (pad_node_data 2 row5).1 (pad_node_data 2 row5).2).length = Except.ok 4
    rw [hlen]
  · decide

/-- Witness for C4 at `N = 5`, `b = 2`. -/
theorem C4_table_levels_witness :
    (2 ≤ 2 ∧ 2 ≤ row5.length) ∧
    (∃ t, tree_generator aggFirst 2 row5 = Except.ok t ∧
      t.length = kOf 2 row5.length + 2 ∧
      t.getLast? = some (pad_node_data 2 row5)) :=
  ⟨by decide, C4_table_levels aggFirst 2 row5 (by decide) (by decide)⟩

/-- C9 counterexample: at `N = 1`, `b = 2` the data-setup operation fails —
modelled as `shapeError` because the source computes `log(0) = -inf`, casts
it to int (undefined, `-2147483648` in practice) and then divides by
`2 ** k = 0.0` in `math.ceil`, raising `ZeroDivisionError`.  It neither
derives `k = 0` nor builds a single-level tree, refuting the claim. -/
theorem C9_degenerate_counterexample :
    tree_generator aggFirst 2 [[0]] = Except.error TreeMemoryError.shapeError := rfl

/-- C9 (amended): for every single-item input (`N = 1`) with branch factor
`b = 2`, the data-setup operation raises (the degenerate logarithm leads to a
`ZeroDivisionError`) instead of building a tree; no tree table is produced. -/
theorem C9_degenerate_raises (agg : List Vec → List ℚ → Vec) (v : Vec) :
    tree_generator agg 2 [v] = Except.error TreeMemoryError.shapeError := rfl

/-- C6: in every tree level table produced by bottom-up aggregation, the mask
of a node equals the logical OR of the masks of its child group on the next
level (group size `b` on the aggregated levels, `P` between the leaf-group
summaries and the raw leaf level), and the root mask is `1`:
(i) for every table built by `tree_generator` on `N ≥ 2` items, and
(ii) for `bottom_up_aggregation` on any leaf level whose 0/1 mask marks at
least one real item — which is what `N ≥ 1` provides. -/
theorem C6_mask_invariant (agg : List Vec → List ℚ → Vec) (b : ℕ) (row : List Vec)
    (hb : 2 ≤ b) (hN : 2 ≤ row.length) :
    (∃ t, tree_generator agg b row = Except.ok t ∧
      (∀ i li li1, t[i]? = some li → t[i + 1]? = some li1 →
        li.2 = maskOr (if i < kOf b row.length then b else POf b row.length) li1.2) ∧
      (∃ e, t[0]? = some (e, [1]))) ∧
    (∀ gs e m, (∀ g ∈ gs, 1 ≤ g) → m.length = gs.prod →
      (∀ x ∈ m, x = 0 ∨ x = 1) → (∃ x ∈ m, x ≠ 0) →
      ∃ er, (bottom_up_aggregation agg gs e m).head? = some (er, [1])) := by
  constructor
  · set N := row.length with hNdef
    set k := kOf b N with hkdef
    set P := POf b N with hPdef
    set gs : List ℕ := P :: List.replicate k b with hgs
    set dm := pad_node_data b row with hdm
    have hlen : (bottom_up_aggregation agg gs dm.1 dm.2).length = k + 2 := by
      rw [bua_length]
      simp [hgs]
    refine ⟨bottom_up_aggregation agg gs dm.1 dm.2, tree_generator_ok agg b row hN, ?_, ?_⟩
    · intro i li li1 hli hli1
      have hi1 : i + 1 < k + 2 := by
        by_contra hcon
        rw [List.getElem?_eq_none (by omega)] at hli1
        simp at hli1
      have hrev : (gs.reverse)[i]? = some (if i < k then b else P) := by
        rw [hgs, List.reverse_cons, List.reverse_replicate]
        rw [List.getElem?_append]
        by_cases hik : i < k
        · rw [if_pos (by simpa using hik), if_pos hik]
          simp [List.getElem?_replicate, hik]
        · have hik2 : i = k := by omega
          rw [if_neg (by simpa using hik), if_neg hik]
          simp [hik2]
      exact bua_adjacent agg gs dm.1 dm.2 i _ li li1 hrev hli hli1
    · have hP1 : 1 ≤ P := POf_pos b N hb hN
      have hmlen : dm.2.length = P * b ^ k := pad_node_data_mask_length b row hb hN
      have hprod : gs.prod = P * b ^ k := by
        rw [hgs, List.prod_cons, List.prod_replicate]
      have h01 : ∀ x ∈ dm.2, x = 0 ∨ x = 1 := by
        intro x hx
        rw [hdm] at hx
        simp only [pad_node_data] at hx
        rcases List.mem_append.mp hx with h | h
        · right; exact (List.eq_of_mem_replicate h)
        · left; exact (List.eq_of_mem_replicate h)
      have hex : ∃ x ∈ dm.2, x ≠ 0 := by
        refine ⟨1, ?_, one_ne_zero⟩
        rw [hdm]
        simp only [pad_node_data]
        apply List.mem_append_left
        exact List.mem_replicate.mpr ⟨by omega, rfl⟩
      obtain ⟨er, her⟩ := bua_root agg gs dm.1 dm.2
        (by
          intro g hgmem
          rw [hgs] at hgmem
          rcases List.mem_cons.mp hgmem with rfl | hmem
          · exact hP1
          · have : g = b := List.eq_of_mem_replicate hmem
            omega)
        (by rw [hmlen, hprod]) h01 hex
      refine ⟨er, ?_⟩
      rw [show (bottom_up_aggregation agg gs dm.1 dm.2)[0]? =
        (bottom_up_aggregation agg gs dm.1 dm.2).head? by
          cases bottom_up_aggregation agg gs dm.1 dm.2 <;> simp]
      exact her
  · exact bua_root agg

/-- Witness for C6 at `N = 5`, `b = 2` with the concrete aggregator
`aggFirst`. -/
theorem C6_mask_invariant_witness :
    (2 ≤ 2 ∧ 2 ≤ row5.length) ∧
    ((∃ t, tree_generator aggFirst 2 row5 = Except.ok t ∧
      (∀ i li li1, t[i]? = some li → t[i + 1]? = some li1 →
        li.2 = maskOr (if i < kOf 2 row5.length then 2 else POf 2 row5.length) li1.2) ∧
      (∃ e, t[0]? = some (e, [1]))) ∧
    (∀ gs e m, (∀ g ∈ gs, 1 ≤ g) → m.length = gs.prod →
      (∀ x ∈ m, x = 0 ∨ x = 1) → (∃ x ∈ m, x ≠ 0) →
      ∃ er, (bottom_up_aggregation aggFirst gs e m).head? = some (er, [1]))) :=
  ⟨by decide, C6_mask_invariant aggFirst 2 row5 (by decide) (by decide)⟩

/-! ### Top-down retrieval: `tree_retrieval` and `retrieve` -/

/-- The opaque attention collaborator `self.query_model` (an
`AttPreNorm`/`AttPostNorm`-wrapped `Attention` block): given queries
`[M, D]`, keys, values and a key mask, it returns the attended output
`[M, D]`, the per-key mean attention weights (`att_weight_mean_nodes`, one
scalar per key) and the raw attention weights (`att_weight`, `[M, keys]`), as
produced with `return_info=True`; calls with `return_info=False` use only the
first component. -/
abbrev AttFn : Type :=
  List Vec → List Vec → List Vec → List ℚ → (List Vec × List ℚ × List (List ℚ))

/-- `TreeMemory.use_mlps` (lines 261-280), one batch row.  `mlp` is the
stored per-level linear map `self.mlps[i]`; `fresh` holds the weight row and
bias of the `nn.Linear(M, 1)` that the source constructs anew — randomly
initialised — on every call at line 273.  The `einsum('bnd,bmd->bnm', ...)`
contraction and the fresh linear layer produce one decision scalar per child,
returned as the `[1, b]` row of line 278. -/
def use_mlps (mlp : Vec → Vec) (fresh : List ℚ × ℚ) (query_data : List Vec)
    (layer_data_embeddings : List Vec) : List ℚ :=
  let projected := layer_data_embeddings.map mlp
  let decision := projected.map (fun p => query_data.map (fun q => dotProd p q))
  decision.map (fun r => dotProd fresh.1 r + fresh.2)

/-- Inverse-CDF selection: the index whose cumulative weight first exceeds
the threshold `t`. -/
def invCDF (w : List ℚ) (t : ℚ) : ℕ :=
  match w with
  | [] => 0
  | x :: rest => if t < x then 0 else invCDF rest (t - x) + 1

/-- One draw of `torch.multinomial(weights, 1)` (line 353): an index sampled
proportionally to the nonnegative weights, driven by a uniform draw
`u ∈ [0, 1)`. -/
def multinomialSample (w : List ℚ) (u : ℚ) : ℕ := invCDF w (u * w.sum)

/-- `tensor.max(-1)[1]` (line 356): the index of the first maximal entry. -/
def argmaxFirst : List ℚ → ℕ
  | [] => 0
  | x :: xs =>
      let j := argmaxFirst xs
      if xs.getD j x ≤ x then 0 else j + 1

/-- `F.mse_loss` with its default mean reduction (line 335). -/
def mseLoss (a b : List ℚ) : ℚ :=
  (List.zipWith (fun x y => (x - y) ^ 2) a b).sum /
    ((List.zipWith (fun x y => (x - y) ^ 2) a b).length : ℚ)

/-- The per-call-stable state of a `TreeMemory` instance entering `retrieve`:
the mode flags, the stored `self.mlps` weights, the opaque attention and
feed-forward collaborators, the real logarithm applied to attention scores
(`torch.log`, opaque on `ℚ`), and the `mean_mlp_loss` table. -/
structure TreeMemoryEnv where
  training : Bool
  norm_first : Bool
  mlps : ℕ → Vec → Vec
  query_model : AttFn
  query_ff : List Vec → List Vec
  rlog : ℚ → ℚ
  mean_mlp_loss : ℕ → ℕ × ℚ

/-- The random draws consumed by one `tree_retrieval` call: per level `i`,
the `torch.rand(B, 1, 2)` scores of line 327, the randomly initialised fresh
`nn.Linear` inside `use_mlps` (line 273), and the uniform draw behind
`torch.multinomial` (line 353). -/
structure TreeRetrievalDraws where
  rand_scores : ℕ → List ℚ
  fresh_linear : ℕ → List ℚ × ℚ
  sample_u : ℕ → ℚ

/-- Accumulated state of the descent loop of `tree_retrieval` (lines
299-385): the appended selected embeddings and masks, the RL side lists and
the updated `mean_mlp_loss` table. -/
structure TRState where
  sel_embs : List (List Vec)
  sel_masks : List (List ℚ)
  entropies : List (List ℚ)
  log_probs : List ℚ
  mean_mlp_loss : ℕ → ℕ × ℚ

/-- The descent loop of `tree_retrieval` (lines 304-385), one batch row.
`levels` is `filtered_tree_data = self.train_tree_data[1:]`, `i` the loop
index and `D` the embedding dimension read from the root level.  Each
iteration reads the stored level pair but immediately discards it, replacing
both embeddings and mask by the all-ones placeholder pair
`torch.ones(B, 2, D)` / `torch.ones(B, 2, 1)` (lines 307-308) — hence the
level argument is ignored except for driving the loop; the last iteration
appends the placeholder pair itself and breaks (lines 310-313).  While
training, the attention output `level_search_att_weight_mean_nodes` is
immediately overwritten by the `torch.rand` draw (line 327), the auxiliary
per-level MLP loss is computed and tracked (lines 329-339), and a branch is
sampled with `torch.multinomial` (line 353); at inference the branch is the
arg-max of the `use_mlps` decision row (line 356).  The selected embedding is
gathered from the (placeholder) level and the mask `1 - selected_index` is
appended (lines 361-372); training additionally records the entropy of the
attention weights and the log probability of the selected branch (lines
375-385). -/
def trLoop (env : TreeMemoryEnv) (draws : TreeRetrievalDraws) (query_data : List Vec)
    (D : ℕ) : (ℕ → ℕ × ℚ) → ℕ → List TreeLevel → TRState
  | mml, _, [] => ⟨[], [], [], [], mml⟩
  | mml, i, _lvl :: rest =>
      let layer_data_embeddings := List.replicate 2 (onesVec D)
      let layer_data_mask := List.replicate 2 (1 : ℚ)
      if rest.isEmpty then
        ⟨[layer_data_embeddings], [layer_data_mask], [], [], mml⟩
      else
        if env.training then
          let attOut := env.query_model query_data layer_data_embeddings
            layer_data_embeddings layer_data_mask
          let search_att_weight := attOut.2.2
          let scores := draws.rand_scores i
          let decision := use_mlps (env.mlps i) (draws.fresh_linear i) query_data
            layer_data_embeddings
          let loss := mseLoss scores decision
          let mml2 := fun j => if j = i then track_mlp_loss (mml j) loss else mml j
          let sel := multinomialSample scores (draws.sample_u i)
          let gathered := [layer_data_embeddings.getD sel (onesVec D)]
          let lvl_mask := [1 - (sel : ℚ)]
          let ent := search_att_weight.map
            (fun r => (r.map (fun w => -(w * env.rlog (w + 1 / 1000000000)))).sum)
          let lp := env.rlog (scores.getD sel 0)
          let s := trLoop env draws query_data D mml2 (i + 1) rest
          ⟨gathered :: s.sel_embs, lvl_mask :: s.sel_masks, ent :: s.entropies,
            lp :: s.log_probs, s.mean_mlp_loss⟩
        else
          let scores := use_mlps (env.mlps i) (draws.fresh_linear i) query_data
            layer_data_embeddings
          let sel := argmaxFirst scores
          let gathered := [layer_data_embeddings.getD sel (onesVec D)]
          let lvl_mask := [1 - (sel : ℚ)]
          let s := trLoop env draws query_data D mml (i + 1) rest
          ⟨gathered :: s.sel_embs, lvl_mask :: s.sel_masks, s.entropies,
            s.log_probs, s.mean_mlp_loss⟩

/-- Everything `tree_retrieval` computes before the unconditional `quit()`:
the selected-path embeddings and masks, the RL lists, the updated
`mean_mlp_loss` table and the final cross-attention embedding `pred_emb`
(line 397). -/
structure TRCore where
  sel_embs : List (List Vec)
  sel_masks : List (List ℚ)
  entropies : List (List ℚ)
  log_probs : List ℚ
  mean_mlp_loss : ℕ → ℕ × ℚ
  pred_emb : List Vec

/-- The computation of `TreeMemory.tree_retrieval` (lines 289-408) up to the
`quit()` call, one batch row: `none` when the table is empty (the read of
`self.train_tree_data[0]` at line 294 raises `IndexError`); otherwise the
loop over `filtered_tree_data = table[1:]`, the concatenation of the
selected path (`torch.cat`, lines 388-389) and the final cross-attention
(line 397). -/
def tree_retrieval_core (env : TreeMemoryEnv) (draws : TreeRetrievalDraws)
    (query_data : List Vec) (table : List TreeLevel) : Option TRCore :=
  match table with
  | [] => none
  | root :: filtered =>
      let D := (root.1.headD []).length
      let st := trLoop env draws query_data D env.mean_mlp_loss 0 filtered
      let search_data_embeddings := st.sel_embs.join
      let search_data_masks := st.sel_masks.join
      let pred_emb := (env.query_model query_data search_data_embeddings
        search_data_embeddings search_data_masks).1
      some ⟨st.sel_embs, st.sel_masks, st.entropies, st.log_probs,
        st.mean_mlp_loss, pred_emb⟩

/-- `TreeMemory.tree_retrieval` (lines 289-411).  After computing `pred_emb`
the source prints debug shapes and calls `quit()` unconditionally (line 409),
so the `return` at line 411 is unreachable and the call never produces a
value: modelled as the `processQuit` error (`indexError` when no tree table
is present). -/
def tree_retrieval (env : TreeMemoryEnv) (draws : TreeRetrievalDraws)
    (query_data : List Vec) (table : List TreeLevel) :
    Except TreeMemoryError (List Vec × List (List ℚ) × List ℚ × (ℕ → ℕ × ℚ)) :=
  match tree_retrieval_core env draws query_data table with
  | none => Except.error TreeMemoryError.indexError
  | some _ => Except.error TreeMemoryError.processQuit

/-- `TreeMemory.tree_leaves_retrieval` (lines 413-426): cross-attention of
the queries against the flattened raw leaf level (the last stored table
entry), one batch row. -/
def tree_leaves_retrieval (env : TreeMemoryEnv) (query_data : List Vec)
    (table : List TreeLevel) : List Vec :=
  let leaf := table.getLast?.getD ([], [])
  (env.query_model query_data leaf.1 leaf.1 leaf.2).1

/-- `TreeMemory.process_rl_terms` (lines 428-441), one batch row: the mean
over all entropy entries and the sum over levels of the log selection
probabilities; both `0.0` when the corresponding list is empty. -/
def process_rl_terms (ents : List (List ℚ)) (lps : List ℚ) : ℚ × ℚ :=
  (if ents.isEmpty then 0 else ents.join.sum / ((ents.join.length : ℚ)),
   if lps.isEmpty then 0 else lps.sum)

/-- The value `TreeMemory.retrieve` hands back to its caller: a bare
embedding at inference, the 5-tuple while training (lines 246-259). -/
inductive RetrieveOut where
  | inferenceOut (ret_emb : List Vec) : RetrieveOut
  | trainingOut (ret_emb leaf_ret_emb : List Vec)
      (entropy_scores log_action_probs : ℚ)
      (mean_mlp_loss : ℕ → ℕ × ℚ) : RetrieveOut

/-- `TreeMemory.retrieve` (lines 233-259), one batch row.  It can only
propagate the error produced by `tree_retrieval` (which never returns
normally); the `ok` branch spells out what would be returned if
`tree_retrieval` did return. -/
def retrieve (env : TreeMemoryEnv) (draws : TreeRetrievalDraws)
    (query_data : List Vec) (table : List TreeLevel) :
    Except TreeMemoryError RetrieveOut :=
  match tree_retrieval env draws query_data table with
  | Except.error e => Except.error e
  | Except.ok (pred_emb, ents, lps, mml2) =>
      let ret_emb := if env.norm_first then env.query_ff (addVecs pred_emb query_data)
        else env.query_ff pred_emb
      if !env.training then Except.ok (RetrieveOut.inferenceOut ret_emb)
      else
        let leaf_pred_emb := tree_leaves_retrieval env query_data table
        let rl := process_rl_terms ents lps
        let leaf_ret_emb := if env.norm_first then
            env.query_ff (addVecs leaf_pred_emb query_data)
          else env.query_ff leaf_pred_emb
        Except.ok (RetrieveOut.trainingOut ret_emb leaf_ret_emb rl.1 rl.2 mml2)

lemma use_mlps_replicate_pair (mlp : Vec → Vec) (fresh : List ℚ × ℚ)
    (query_data : List Vec) (v : Vec) :
    use_mlps mlp fresh query_data (List.replicate 2 v) =
      [dotProd fresh.1 (query_data.map (fun q => dotProd (mlp v) q)) + fresh.2,
       dotProd fresh.1 (query_data.map (fun q => dotProd (mlp v) q)) + fresh.2] := rfl

lemma argmaxFirst_pair_eq (s : ℚ) : argmaxFirst [s, s] = 0 := by
  simp [argmaxFirst]

lemma getD_replicate_self {α : Type} (n s : ℕ) (v : α) :
    (List.replicate n v).getD s v = v := by
  rcases Nat.lt_or_ge s n with h | h
  · simp [List.getD, List.getElem?_replicate, h]
  · have hlen : (List.replicate n v).length ≤ s := by simpa using h
    simp [List.getD, List.getElem?_eq_none hlen]

lemma getLast?_cons_ne {α : Type} (a : α) (l : List α) (h : l ≠ []) :
    (a :: l).getLast? = l.getLast? := by
  cases l with
  | nil => exact absurd rfl h
  | cons b t => simp [List.getLast?_cons_cons]

lemma isEmpty_false_iff {α : Type} (l : List α) : l.isEmpty = false ↔ l ≠ [] := by
  cases l <;> simp

lemma trLoop_cons_ne (env : TreeMemoryEnv) (draws : TreeRetrievalDraws)
    (q : List Vec) (D : ℕ) (mml : ℕ → ℕ × ℚ) (i : ℕ) (lvl : TreeLevel)
    (rest : List TreeLevel) (hrest : rest.isEmpty = false) :
    ∃ (sel : ℕ) (mml2 : ℕ → ℕ × ℚ),
      (trLoop env draws q D mml i (lvl :: rest)).sel_embs =
        [(List.replicate 2 (onesVec D)).getD sel (onesVec D)] ::
          (trLoop env draws q D mml2 (i + 1) rest).sel_embs ∧
      (trLoop env draws q D mml i (lvl :: rest)).sel_masks =
        [1 - (sel : ℚ)] :: (trLoop env draws q D mml2 (i + 1) rest).sel_masks := by
  by_cases htr : env.training
  · refine ⟨multinomialSample (draws.rand_scores i) (draws.sample_u i),
      fun j => if j = i then track_mlp_loss (mml j)
        (mseLoss (draws.rand_scores i)
          (use_mlps (env.mlps i) (draws.fresh_linear i) q (List.replicate 2 (onesVec D))))
        else mml j, ?_, ?_⟩ <;>
    simp [trLoop, hrest, htr]
  · refine ⟨argmaxFirst
      (use_mlps (env.mlps i) (draws.fresh_linear i) q (List.replicate 2 (onesVec D))),
      mml, ?_, ?_⟩ <;>
    simp [trLoop, hrest, htr]

lemma trLoop_lengths (env : TreeMemoryEnv) (draws : TreeRetrievalDraws)
    (q : List Vec) (D : ℕ) :
    ∀ (levels : List TreeLevel) (mml : ℕ → ℕ × ℚ) (i : ℕ),
      (trLoop env draws q D mml i levels).sel_embs.length = levels.length ∧
      (trLoop env draws q D mml i levels).sel_masks.length = levels.length := by
  intro levels
  induction levels with
  | nil => intro mml i; exact ⟨rfl, rfl⟩
  | cons lvl rest ih =>
      intro mml i
      by_cases hrest : rest.isEmpty
      · have hnil : rest = [] := by
          cases rest with
          | nil => rfl
          | cons a t => simp at hrest
        subst hnil
        constructor <;> simp [trLoop]
      · have hrest2 : rest.isEmpty = false := by
          cases rest with
          | nil => exact absurd rfl hrest
          | cons a t => rfl
        obtain ⟨sel, mml2, he, hm⟩ := trLoop_cons_ne env draws q D mml i lvl rest hrest2
        constructor
        · rw [he]
          simp [(ih mml2 (i + 1)).1]
        · rw [hm]
          simp [(ih mml2 (i + 1)).2]

lemma trLoop_last (env : TreeMemoryEnv) (draws : TreeRetrievalDraws)
    (q : List Vec) (D : ℕ) :
    ∀ (levels : List TreeLevel) (mml : ℕ → ℕ × ℚ) (i : ℕ), levels ≠ [] →
      (trLoop env draws q D mml i levels).sel_embs.getLast? =
        some (List.replicate 2 (onesVec D)) ∧
      (trLoop env draws q D mml i levels).sel_masks.getLast? =
        some (List.replicate 2 (1 : ℚ)) := by
  intro levels
  induction levels with
  | nil => intro mml i h; exact absurd rfl h
  | cons lvl rest ih =>
      intro mml i _
      by_cases hrest : rest.isEmpty
      · have hnil : rest = [] := by
          cases rest with
          | nil => rfl
          | cons a t => simp at hrest
        subst hnil
        constructor <;> simp [trLoop]
      · have hrest2 : rest.isEmpty = false := by
          cases rest with
          | nil => exact absurd rfl hrest
          | cons a t => rfl
        have hne : rest ≠ [] := (isEmpty_false_iff rest).mp hrest2
        obtain ⟨sel, mml2, he, hm⟩ := trLoop_cons_ne env draws q D mml i lvl rest hrest2
        have ihr := ih mml2 (i + 1) hne
        have hlens := trLoop_lengths env draws q D rest mml2 (i + 1)
        constructor
        · rw [he, getLast?_cons_ne]
          · exact ihr.1
          · intro hnil
            rw [hnil] at hlens
            have := hlens.1
            simp at this
            exact hne (List.length_eq_zero.mp this.symm)
        · rw [hm, getLast?_cons_ne]
          · exact ihr.2
          · intro hnil
            rw [hnil] at hlens
            have := hlens.2
            simp at this
            exact hne (List.length_eq_zero.mp this.symm)

lemma trLoop_entries (env : TreeMemoryEnv) (draws : TreeRetrievalDraws)
    (q : List Vec) (D : ℕ) :
    ∀ (levels : List TreeLevel) (mml : ℕ → ℕ × ℚ) (i j : ℕ), j + 1 < levels.length →
      (trLoop env draws q D mml i levels).sel_embs[j]? = some [onesVec D] := by
  intro levels
  induction levels with
  | nil => intro mml i j h; simp at h
  | cons lvl rest ih =>
      intro mml i j hj
      have hrest2 : rest.isEmpty = false := by
        cases rest with
        | nil => simp at hj
        | cons a t => rfl
      obtain ⟨sel, mml2, he, _⟩ := trLoop_cons_ne env draws q D mml i lvl rest hrest2
      rw [he]
      cases j with
      | zero => simp only [List.getElem?_cons_zero, getD_replicate_self]
      | succ j2 =>
          rw [List.getElem?_cons_succ]
          exact ih mml2 (i + 1) j2 (by simp at hj; omega)

lemma trLoop_table_content (env : TreeMemoryEnv) (draws : TreeRetrievalDraws)
    (q : List Vec) (D : ℕ) :
    ∀ (l1 l2 : List TreeLevel), l1.length = l2.length →
      ∀ (mml : ℕ → ℕ × ℚ) (i : ℕ),
        trLoop env draws q D mml i l1 = trLoop env draws q D mml i l2 := by
  intro l1
  induction l1 with
  | nil =>
      intro l2 hlen mml i
      have : l2 = [] := List.length_eq_zero.mp (by simpa using hlen.symm)
      subst this
      rfl
  | cons a r1 ih =>
      intro l2 hlen mml i
      obtain ⟨b2, r2, rfl⟩ : ∃ b2 r2, l2 = b2 :: r2 := by
        cases l2 with
        | nil => simp at hlen
        | cons b2 r2 => exact ⟨b2, r2, rfl⟩
      have hr : r1.length = r2.length := by simpa using hlen
      by_cases hrest : r1.isEmpty
      · have h1 : r1 = [] := by
          cases r1 with
          | nil => rfl
          | cons x t => simp at hrest
        have h2 : r2 = [] := by
          rw [h1] at hr
          exact List.length_eq_zero.mp (by simpa using hr.symm)
        subst h1
        subst h2
        rfl
      · have h1 : r1.isEmpty = false := by
          cases r1 with
          | nil => exact absurd rfl hrest
          | cons x t => rfl
        have h2 : r2.isEmpty = false := by
          cases r2 with
          | nil =>
              have hr0 : r1.length = 0 := by simpa using hr
              exact absurd (List.length_eq_zero.mp hr0) ((isEmpty_false_iff r1).mp h1)
          | cons x t => rfl
        simp only [trLoop, h1, h2]
        simp only [ih r2 hr]

lemma trLoop_cons_training (env : TreeMemoryEnv) (htr : env.training = true)
    (draws : TreeRetrievalDraws) (q : List Vec) (D : ℕ) (mml : ℕ → ℕ × ℚ) (i : ℕ)
    (lvl : TreeLevel) (rest : List TreeLevel) (hrest : rest.isEmpty = false) :
    (trLoop env draws q D mml i (lvl :: rest)).sel_masks =
      [1 - (multinomialSample (draws.rand_scores i) (draws.sample_u i) : ℚ)] ::
        (trLoop env draws q D
          (fun j => if j = i then track_mlp_loss (mml j)
            (mseLoss (draws.rand_scores i)
              (use_mlps (env.mlps i) (draws.fresh_linear i) q (List.replicate 2 (onesVec D))))
            else mml j)
          (i + 1) rest).sel_masks := by
  simp [trLoop, hrest, htr]

lemma trLoop_training_masks (env1 env2 : TreeMemoryEnv) (h1 : env1.training = true)
    (h2 : env2.training = true) (draws : TreeRetrievalDraws)
    (q1 q2 : List Vec) (D1 D2 : ℕ) :
    ∀ (levels : List TreeLevel) (mml1 mml2 : ℕ → ℕ × ℚ) (i : ℕ),
      (trLoop env1 draws q1 D1 mml1 i levels).sel_masks =
      (trLoop env2 draws q2 D2 mml2 i levels).sel_masks := by
  intro levels
  induction levels with
  | nil => intro mml1 mml2 i; rfl
  | cons lvl rest ih =>
      intro mml1 mml2 i
      by_cases hrest : rest.isEmpty
      · have hnil : rest = [] := by
          cases rest with
          | nil => rfl
          | cons a t => simp at hrest
        subst hnil
        rfl
      · have hrest2 : rest.isEmpty = false := by
          cases rest with
          | nil => exact absurd rfl hrest
          | cons a t => rfl
        rw [trLoop_cons_training env1 h1 draws q1 D1 mml1 i lvl rest hrest2,
            trLoop_cons_training env2 h2 draws q2 D2 mml2 i lvl rest hrest2]
        exact congrArg (List.cons _) (ih _ _ (i + 1))

lemma trLoop_inference_draws (env : TreeMemoryEnv) (h : env.training = false)
    (d1 d2 : TreeRetrievalDraws) (q : List Vec) (D : ℕ) :
    ∀ (levels : List TreeLevel) (mml : ℕ → ℕ × ℚ) (i : ℕ),
      trLoop env d1 q D mml i levels = trLoop env d2 q D mml i levels := by
  intro levels
  induction levels with
  | nil => intro mml i; rfl
  | cons lvl rest ih =>
      intro mml i
      by_cases hrest : rest.isEmpty
      · have hnil : rest = [] := by
          cases rest with
          | nil => rfl
          | cons a t => simp at hrest
        subst hnil
        rfl
      · have hrest2 : rest.isEmpty = false := by
          cases rest with
          | nil => exact absurd rfl hrest
          | cons a t => rfl
        have hs1 : argmaxFirst
            (use_mlps (env.mlps i) (d1.fresh_linear i) q (List.replicate 2 (onesVec D))) = 0 := by
          rw [use_mlps_replicate_pair]
          exact argmaxFirst_pair_eq _
        have hs2 : argmaxFirst
            (use_mlps (env.mlps i) (d2.fresh_linear i) q (List.replicate 2 (onesVec D))) = 0 := by
          rw [use_mlps_replicate_pair]
          exact argmaxFirst_pair_eq _
        simp only [trLoop, hrest2, h]
        simp only [Bool.false_eq_true, if_false]
        rw [hs1, hs2, ih mml (i + 1)]

/-- C1: in every call to `tree_retrieval`, the per-level content read from the
stored tree table is immediately replaced by the constant all-ones
placeholder pair (`torch.ones(B, 2, D)` / `torch.ones(B, 2, 1)`), the
attention-derived selection score is replaced by uniform-random values while
training, and the loop stops one level early by appending the placeholder
pair instead of real children.  Formally: (i) the whole computation depends
on the stored table only through its level count and the root embedding
dimension `D`; (ii) the result appends exactly one entry per traversed level,
the final appended pair is the all-ones placeholder pair, and every earlier
appended selection is the gathered all-ones vector; (iii) while training the
selected path masks depend only on the random draws — not on the attention
module, the stored MLPs, or the queries. -/
theorem C1_placeholder_descent (env : TreeMemoryEnv) (draws : TreeRetrievalDraws)
    (query_data : List Vec) (root : TreeLevel) (filtered : List TreeLevel) :
    (∀ (root2 : TreeLevel) (f2 : List TreeLevel),
      filtered.length = f2.length →
      (root.1.headD []).length = (root2.1.headD []).length →
      tree_retrieval_core env draws query_data (root :: filtered) =
        tree_retrieval_core env draws query_data (root2 :: f2)) ∧
    (∀ c, tree_retrieval_core env draws query_data (root :: filtered) = some c →
      c.sel_embs.length = filtered.length ∧
      (filtered ≠ [] →
        c.sel_embs.getLast? = some (List.replicate 2 (onesVec (root.1.headD []).length)) ∧
        c.sel_masks.getLast? = some (List.replicate 2 (1 : ℚ))) ∧
      (∀ j, j + 1 < filtered.length →
        c.sel_embs[j]? = some [onesVec (root.1.headD []).length])) ∧
    (env.training = true →
      ∀ (env2 : TreeMemoryEnv), env2.training = true →
      ∀ (q2 : List Vec) (c c2 : TRCore),
        tree_retrieval_core env draws query_data (root :: filtered) = some c →
        tree_retrieval_core env2 draws q2 (root :: filtered) = some c2 →
        c.sel_masks = c2.sel_masks) := by
  refine ⟨?_, ?_, ?_⟩
  · intro root2 f2 hlen hdim
    simp only [tree_retrieval_core]
    rw [← hdim]
    rw [trLoop_table_content env draws query_data (root.1.headD []).length
      filtered f2 hlen env.mean_mlp_loss 0]
  · intro c hc
    simp only [tree_retrieval_core] at hc
    have hc2 := (Option.some.inj hc).symm
    subst hc2
    refine ⟨?_, ?_, ?_⟩
    · exact (trLoop_lengths env draws query_data _ filtered env.mean_mlp_loss 0).1
    · intro hne
      exact trLoop_last env draws query_data _ filtered env.mean_mlp_loss 0 hne
    · intro j hj
      exact trLoop_entries env draws query_data _ filtered env.mean_mlp_loss 0 j hj
  · intro htr env2 htr2 q2 c c2 hc hc2
    simp only [tree_retrieval_core] at hc hc2
    have hc3 := (Option.some.inj hc).symm
    have hc4 := (Option.some.inj hc2).symm
    subst hc3
    subst hc4
    exact trLoop_training_masks env env2 htr htr2 draws query_data q2 _ _
      filtered env.mean_mlp_loss env2.mean_mlp_loss 0

/-- C3: for every fixed stored tree table and fixed query, inference-mode
(non-training) top-down retrieval is deterministic: the whole computed result
(selected path, masks, final embedding, loss table) is independent of every
per-call random draw — both the unused sampling draws and the freshly
initialised `nn.Linear` inside `use_mlps`, whose random weights cancel
because both (placeholder) children are identical, so the arg-max always
selects the first child. -/
theorem C3_inference_deterministic (env : TreeMemoryEnv) (h : env.training = false)
    (d1 d2 : TreeRetrievalDraws) (query_data : List Vec) (table : List TreeLevel) :
    tree_retrieval_core env d1 query_data table =
      tree_retrieval_core env d2 query_data table := by
  cases table with
  | nil => rfl
  | cons root filtered =>
      simp only [tree_retrieval_core]
      rw [trLoop_inference_draws env h d1 d2 query_data (root.1.headD []).length
        filtered env.mean_mlp_loss 0]

/-- C10: `tree_retrieval` unconditionally reaches the `quit()` call after
computing the final cross-attention embedding, on every input and in both
modes, so `retrieve` never returns a value to its caller on any code path
(the only other path, an empty table, raises an `IndexError` instead). -/
theorem C10_retrieve_never_returns :
    (∀ (env : TreeMemoryEnv) (draws : TreeRetrievalDraws) (query_data : List Vec)
      (table : List TreeLevel) (v : RetrieveOut),
        retrieve env draws query_data table ≠ Except.ok v) ∧
    (∀ (env : TreeMemoryEnv) (draws : TreeRetrievalDraws) (query_data : List Vec)
      (root : TreeLevel) (rest : List TreeLevel),
        tree_retrieval env draws query_data (root :: rest) =
          Except.error TreeMemoryError.processQuit) := by
  constructor
  · intro env draws q t v
    cases ht : tree_retrieval_core env draws q t <;>
      simp [retrieve, tree_retrieval, ht]
  · intro env draws q root rest
    rfl

/-- A concrete inference-mode environment used to instantiate witnesses. -/
def envInfer : TreeMemoryEnv where
  training := false
  norm_first := true
  mlps := fun _ v => v
  query_model := fun q _ _ m => (q, m, [m])
  query_ff := fun v => v
  rlog := fun _ => 0
  mean_mlp_loss := fun _ => (0, 0)

/-- The same instance switched to training mode. -/
def envTrain : TreeMemoryEnv :=
  { envInfer with training := true }

/-- A second, everywhere-different training-mode environment. -/
def envTrain2 : TreeMemoryEnv where
  training := true
  norm_first := false
  mlps := fun _ _ => [5]
  query_model := fun q _ _ _ => (q, [7], [[3, 4]])
  query_ff := fun _ => []
  rlog := fun x => x
  mean_mlp_loss := fun _ => (3, 1 / 2)

/-- One concrete set of random draws. -/
def draws1 : TreeRetrievalDraws where
  rand_scores := fun _ => [1 / 2, 1 / 2]
  fresh_linear := fun _ => ([1], 0)
  sample_u := fun _ => 1 / 3

/-- A different concrete set of random draws. -/
def draws2 : TreeRetrievalDraws where
  rand_scores := fun _ => [1 / 4, 3 / 4]
  fresh_linear := fun _ => ([-2], 5)
  sample_u := fun _ => 2 / 3

/-- A concrete root level of embedding dimension 1. -/
def rootSmall : TreeLevel := ([[1]], [1])

/-- Two concrete non-root levels. -/
def filteredSmall : List TreeLevel :=
  [([[2], [3]], [1, 1]), ([[4], [5], [6], [7]], [1, 1, 1, 0])]

/-- A root level with different content but the same embedding dimension. -/
def rootAlt : TreeLevel := ([[9]], [0])

/-- Two non-root levels with entirely different content. -/
def filteredAlt : List TreeLevel := [([[7]], [0]), ([[8], [9]], [0, 0])]

/-- A concrete three-level table. -/
def tableSmall : List TreeLevel := rootSmall :: filteredSmall

/-- A concrete single-query batch row. -/
def querySmall : List Vec := [[1]]

/-- A different concrete query batch row. -/
def queryAlt : List Vec := [[2], [3]]

/-- Witness for C1 at concrete environments, draws, queries and tables. -/
theorem C1_placeholder_descent_witness :
    (tree_retrieval_core envTrain draws1 querySmall (rootSmall :: filteredSmall) =
      tree_retrieval_core envTrain draws1 querySmall (rootAlt :: filteredAlt)) ∧
    (∃ c, tree_retrieval_core envTrain draws1 querySmall (rootSmall :: filteredSmall) =
        some c ∧
      c.sel_embs.length = 2 ∧
      c.sel_embs.getLast? = some (List.replicate 2 (onesVec 1)) ∧
      c.sel_masks.getLast? = some (List.replicate 2 (1 : ℚ)) ∧
      c.sel_embs[0]? = some [onesVec 1]) ∧
    (∃ c c2, tree_retrieval_core envTrain draws1 querySmall (rootSmall :: filteredSmall) =
        some c ∧
      tree_retrieval_core envTrain2 draws1 queryAlt (rootSmall :: filteredSmall) = some c2 ∧
      c.sel_masks = c2.sel_masks) := by
  refine ⟨?_, ?_, ?_⟩
  · exact (C1_placeholder_descent envTrain draws1 querySmall rootSmall filteredSmall).1
      rootAlt filteredAlt rfl rfl
  · obtain ⟨c, hc⟩ : ∃ c,
        tree_retrieval_core envTrain draws1 querySmall (rootSmall :: filteredSmall) =
          some c := ⟨_, rfl⟩
    have h := (C1_placeholder_descent envTrain draws1 querySmall rootSmall
      filteredSmall).2.1 c hc
    have hne : filteredSmall ≠ [] := by simp [filteredSmall]
    exact ⟨c, hc, h.1.trans rfl, (h.2.1 hne).1, (h.2.1 hne).2, h.2.2 0 (by decide)⟩
  · obtain ⟨c, hc⟩ : ∃ c,
        tree_retrieval_core envTrain draws1 querySmall (rootSmall :: filteredSmall) =
          some c := ⟨_, rfl⟩
    obtain ⟨c2, hc2⟩ : ∃ c2,
        tree_retrieval_core envTrain2 draws1 queryAlt (rootSmall :: filteredSmall) =
          some c2 := ⟨_, rfl⟩
    exact ⟨c, c2, hc, hc2, (C1_placeholder_descent envTrain draws1 querySmall rootSmall
      filteredSmall).2.2 rfl envTrain2 rfl queryAlt c c2 hc hc2⟩

/-- Witness for C3: the same inference call with two entirely different draw
sets produces the same result. -/
theorem C3_inference_deterministic_witness :
    envInfer.training = false ∧
    tree_retrieval_core envInfer draws1 querySmall tableSmall =
      tree_retrieval_core envInfer draws2 querySmall tableSmall :=
  ⟨rfl, C3_inference_deterministic envInfer rfl draws1 draws2 querySmall tableSmall⟩

/-- C2 (code bug): on a concrete query and stored table, `retrieve` returns
no value in either mode — the unconditional `quit()` reached inside
`tree_retrieval` aborts the process before the documented inference
embedding or training 5-tuple can be returned. -/
theorem C2_retrieve_returns_nothing :
    retrieve envInfer draws1 querySmall tableSmall =
      Except.error TreeMemoryError.processQuit ∧
    retrieve envTrain draws1 querySmall tableSmall =
      Except.error TreeMemoryError.processQuit := by
  constructor <;> rfl

/-- Witness for C10 at a concrete call: the result is the `quit()` error, so
it is not any `ok` value. -/
theorem C10_retrieve_never_returns_witness :
    retrieve envInfer draws1 querySmall tableSmall ≠
      Except.ok (RetrieveOut.inferenceOut [[1]]) ∧
    tree_retrieval envInfer draws1 querySmall (rootSmall :: filteredSmall) =
      Except.error TreeMemoryError.processQuit :=
  ⟨C10_retrieve_never_returns.1 envInfer draws1 querySmall tableSmall
      (RetrieveOut.inferenceOut [[1]]),
    C10_retrieve_never_returns.2 envInfer draws1 querySmall rootSmall filteredSmall⟩
